import Mathlib

/-!
Shallow embedding of `switchy/apps/measure/metrics.py`.

The embedded program pieces are:
* `metric_dtype` rows: `MetricRecord` (float64 fields as `ℚ`, uint32
  counters as `ℕ` expected to lie below `2 ^ 32`);
* the capped ring buffer `CappedArray` with `insert`, the `_view` slice
  (`logicalView`), and the `view` property;
* the derived statistics of `CallMetrics`: `seizure_fail_rate`,
  `answer_seizure_ratio`, `inst_rate`, `wm_rate`, and the module level
  helper `moving_avg`.

Modelling conventions:
* `np.float64` arithmetic is modelled over `ℚ`.  The single place an IEEE
  infinity arises (`1. / 0.` inside `inst_rate`) is made explicit: the raw
  rate is an `Option ℚ` where `none` stands for `+inf`, and the outlier cap
  maps `none` to `300` because `inf > 300`.
* `np.uint32` subtraction wraps modulo `2 ^ 32`; this is `u32sub`.
* numpy integer indexing with a possibly negative index is `npGet`; it
  returns `none` exactly where numpy raises `IndexError`.
* Python `float / float` raises `ZeroDivisionError` on a zero denominator,
  so the fallible statistics return `Except PyError ℚ`.
* `self.view` in the source is a numpy *view* (an aliasing slice), hence
  `view.sort(order='time')` inside `inst_rate` sorts the first
  `min(mi, capacity)` physical slots of the backing buffer in place;
  `inst_rate` is therefore modelled as a state transformer returning the
  mutated buffer together with the rate sequence.
-/

/-- One row of the `metric_dtype` structured array. -/
structure MetricRecord where
  time : ℚ
  invite_latency : ℚ
  answer_latency : ℚ
  call_setup_latency : ℚ
  originate_latency : ℚ
  originate_to_invite_latency : ℚ
  num_failed_calls : ℕ
  num_sessions : ℕ
  deriving DecidableEq

/-- A `np.zeros` row: every field zero-initialised. -/
def zeroRecord : MetricRecord := ⟨0, 0, 0, 0, 0, 0, 0, 0⟩

/-- `CappedArray`: the backing buffer `_buf` (a list of fixed length, the
capacity) and the monotonically increasing insertion index `_mi`. -/
structure CappedArray where
  buf : List MetricRecord
  mi : ℕ
  deriving DecidableEq

/-- `self._buf.size`. -/
def CappedArray.capacity (c : CappedArray) : ℕ := c.buf.length

/-- `self._view = self._buf[:self._mi]` (a numpy slice clips at the array
length, so this has length `min mi capacity`). -/
def CappedArray.logicalView (c : CappedArray) : List MetricRecord :=
  c.buf.take c.mi

/-- The `view` property: `type(self)(self._view, self._mi, self.title)`. -/
def CappedArray.view (c : CappedArray) : CappedArray :=
  ⟨c.logicalView, c.mi⟩

/-- The number of rows an observer of `view()` sees (the length of the view
object's backing slice). -/
def viewLength (c : CappedArray) : ℕ := (CappedArray.view c).buf.length

/-- `CappedArray.insert`: write `value` at physical slot `mi % size`,
increment `mi`, and report whether this insertion completed a lap
(`self._mi > self._buf.size - 1 and i == 0`, evaluated after the
increment). -/
def CappedArray.insert (c : CappedArray) (v : MetricRecord) :
    CappedArray × Bool :=
  let i := c.mi % c.buf.length
  let buf' := c.buf.set i v
  let mi' := c.mi + 1
  (⟨buf', mi'⟩, decide (c.buf.length - 1 < mi' ∧ i = 0))

/-- Repeated insertion (the producer loop), keeping only the final state. -/
def CappedArray.insertAll (c : CappedArray) (vs : List MetricRecord) :
    CappedArray :=
  vs.foldl (fun a v => (a.insert v).1) c

/-- `new_array`: a zero-filled buffer of the given size with `mi = 0`. -/
def new_array (size : ℕ) : CappedArray :=
  ⟨List.replicate size zeroRecord, 0⟩

/-- Column projection `self.num_failed_calls` (the view's uint32 column). -/
def nfcColumn (c : CappedArray) : List ℕ :=
  c.logicalView.map (fun r => r.num_failed_calls)

/-- Column projection `self.time` (the view's float64 column). -/
def timeColumn (c : CappedArray) : List ℚ :=
  c.logicalView.map (fun r => r.time)

/-- `2 ^ 32`, the modulus of `np.uint32` arithmetic. -/
def u32 : ℕ := 2 ^ 32

/-- numpy `uint32` subtraction `a - b` (wraps modulo `2 ^ 32`). -/
def u32sub (a b : ℕ) : ℕ := (a % u32 + (u32 - b % u32)) % u32

/-- The Python exceptions the embedded statistics can raise. -/
inductive PyError where
  | indexError : PyError
  | zeroDivisionError : PyError
  deriving DecidableEq

instance : DecidableEq (Except PyError ℚ) := fun x y =>
  match x, y with
  | Except.ok a, Except.ok b =>
      if h : a = b then isTrue (by rw [h])
      else isFalse (fun hh => h (by cases hh; rfl))
  | Except.error a, Except.error b =>
      if h : a = b then isTrue (by rw [h])
      else isFalse (fun hh => h (by cases hh; rfl))
  | Except.ok _, Except.error _ => isFalse (fun hh => by cases hh)
  | Except.error _, Except.ok _ => isFalse (fun hh => by cases hh)

/-- numpy integer indexing `xs[i]`: a negative index counts from the end;
an index outside `[-len, len)` raises `IndexError` (`none`). -/
def npGet (xs : List ℕ) (i : ℤ) : Option ℕ :=
  let j : ℤ := if i < 0 then (xs.length : ℤ) + i else i
  if 0 ≤ j ∧ j < (xs.length : ℤ) then some (xs.getD j.toNat 0) else none

/-- The explicit negative-`end` normalisation at the top of
`seizure_fail_rate`: `if end < 0: end = array.size + end`. -/
def normEnd (len : ℕ) (e : ℤ) : ℤ := if e < 0 then (len : ℤ) + e else e

/-- `CallMetrics.seizure_fail_rate(start, end)`:
`float(nfc[end] - nfc[start]) / float(end - start)` over the view's
`num_failed_calls` column, after normalising a negative `end`.  Index
accesses happen first (numpy `IndexError`), then the Python float division
raises `ZeroDivisionError` when the denominator is zero. -/
def seizure_fail_rate (c : CappedArray) (start e : ℤ) : Except PyError ℚ :=
  let array := nfcColumn c
  let e' : ℤ := normEnd array.length e
  match npGet array e', npGet array start with
  | some ae, some a0 =>
      let num : ℚ := (u32sub ae a0 : ℕ)
      let denom : ℚ := ((e' - start : ℤ) : ℚ)
      if denom = 0 then Except.error PyError.zeroDivisionError
      else Except.ok (num / denom)
  | _, _ => Except.error PyError.indexError

/-- `CallMetrics.answer_seizure_ratio(start, end) = 1. - sfr(start, end)`,
propagating any exception of the inner call. -/
def answer_seizure_ratio (c : CappedArray) (start e : ℤ) :
    Except PyError ℚ :=
  match seizure_fail_rate c start e with
  | Except.ok r => Except.ok (1 - r)
  | Except.error err => Except.error err

/-- The Bool comparison `ndarray.sort(order='time')` sorts by. -/
def timeLE (a b : MetricRecord) : Bool := decide (a.time ≤ b.time)

/-- The in-place `sort(order='time')` applied to a row list. -/
def sortByTime (rows : List MetricRecord) : List MetricRecord :=
  rows.mergeSort timeLE

/-- The raw rate `1. / d` of one consecutive pair: `none` models the IEEE
infinity numpy produces for `1. / 0.`. -/
def rawRate (d : ℚ) : Option ℚ := if d = 0 then none else some (1 / d)

/-- The outlier cap `rates[rates > 300] = 300`; the IEEE infinity (`none`)
compares greater than `300` and is therefore replaced by `300`. -/
def clampRate (r : Option ℚ) : ℚ :=
  match r with
  | none => 300
  | some q => if 300 < q then 300 else q

/-- The view's `time` column after the in-place sort by time stamp. -/
def sortedTimes (c : CappedArray) : List ℚ :=
  (sortByTime c.logicalView).map (fun r => r.time)

/-- Consecutive differences `ts[1:] - ts[:-1]`. -/
def timeDeltas (ts : List ℚ) : List ℚ :=
  (ts.zip ts.tail).map (fun p => p.2 - p.1)

/-- `CallMetrics.inst_rate`: sort the view in place by `time` (this mutates
the first `min(mi, capacity)` physical slots of the backing buffer, since
the view aliases it), then return `1. / (t[1:] - t[:-1])` with every value
above `300` clamped to `300`.  Result: the mutated buffer and the rates. -/
def inst_rate (c : CappedArray) : CappedArray × List ℚ :=
  let sortedRows := sortByTime c.logicalView
  let c' : CappedArray := ⟨sortedRows ++ c.buf.drop c.mi, c.mi⟩
  let rates :=
    (timeDeltas (sortedRows.map (fun r => r.time))).map
      (fun d => clampRate (rawRate d))
  (c', rates)

/-- The rate sequence `inst_rate` returns. -/
def instRates (c : CappedArray) : List ℚ := (inst_rate c).2

/-- `np.cumsum x`: running partial sums, same length as `x`. -/
def cumsum (x : List ℚ) : List ℚ :=
  (x.scanl (fun a b => a + b) 0).tail

/-- `moving_avg(x, n)`: clamp `n` to `min(x.size, n)`, form the cumulative
sum, replace `cs[n:]` by `cs[n:] - cs[:-n]` (right hand side read from the
original `cs`), and divide everything by the clamped `n`. -/
def moving_avg (x : List ℚ) (n : ℕ) : List ℚ :=
  let m := min x.length n
  let cs := cumsum x
  (List.range x.length).map (fun i =>
    (if m ≤ i then cs.getD i 0 - cs.getD (i - m) 0 else cs.getD i 0) /
      (m : ℚ))

/-- `CallMetrics.wm_rate`: `moving_avg(self.inst_rate, n=100)`. -/
def wm_rate (c : CappedArray) : List ℚ := moving_avg (instRates c) 100

/-- A row holding only a time stamp (other fields zero, as a producer that
fills only `time` would create). -/
def timeRec (t : ℚ) : MetricRecord := ⟨t, 0, 0, 0, 0, 0, 0, 0⟩

/-- A row holding only a failed-call counter value. -/
def nfcRec (k : ℕ) : MetricRecord := ⟨0, 0, 0, 0, 0, 0, k, 0⟩

/-- Capacity-2 buffer whose two rows arrived in reverse time order. -/
def scenarioRev : CappedArray :=
  CappedArray.insertAll (new_array 2) (List.map timeRec [1, 0])

/-- The spec's capacity-4 scenario: insert six rows with
`num_failed_calls = [0, 1, 1, 2, 3, 5]`. -/
def scenarioNfc : CappedArray :=
  CappedArray.insertAll (new_array 4) (List.map nfcRec [0, 1, 1, 2, 3, 5])

/-- The spec's capacity-8 scenario: insert four rows with
`time = [0.0, 1.0, 0.5, 2.0]`. -/
def scenarioTimes : CappedArray :=
  CappedArray.insertAll (new_array 8) (List.map timeRec [0, 1, 1/2, 2])

/-- Capacity-2 buffer with two rows sharing the same time stamp. -/
def scenarioDup : CappedArray :=
  CappedArray.insertAll (new_array 2) (List.map timeRec [1, 1])

/-- Capacity-2 buffer with `num_failed_calls = [0, 1]` (used to exercise
`seizure_fail_rate` with `start > end`). -/
def scenarioBack : CappedArray :=
  CappedArray.insertAll (new_array 2) (List.map nfcRec [0, 1])

/-! ### Basic buffer lemmas -/

theorem insert_fst_eq (c : CappedArray) (v : MetricRecord) :
    (CappedArray.insert c v).1 =
      ⟨c.buf.set (c.mi % c.buf.length) v, c.mi + 1⟩ := rfl

theorem insertAll_mi (c : CappedArray) (vs : List MetricRecord) :
    (CappedArray.insertAll c vs).mi = c.mi + vs.length := by
  induction vs generalizing c with
  | nil => simp [CappedArray.insertAll]
  | cons v vs ih =>
    have h : CappedArray.insertAll c (v :: vs) =
        CappedArray.insertAll (CappedArray.insert c v).1 vs := rfl
    rw [h, ih, insert_fst_eq]
    simp
    omega

theorem insertAll_buf_length (c : CappedArray) (vs : List MetricRecord) :
    (CappedArray.insertAll c vs).buf.length = c.buf.length := by
  induction vs generalizing c with
  | nil => simp [CappedArray.insertAll]
  | cons v vs ih =>
    have h : CappedArray.insertAll c (v :: vs) =
        CappedArray.insertAll (CappedArray.insert c v).1 vs := rfl
    rw [h, ih, insert_fst_eq]
    simp

/-! ### C4: view length -/

/-- C4: for every capacity > 0 and every number `k` of inserts performed
since construction, the view returned by `view()` has length
`min (k) (capacity)`. -/
theorem view_length_eq_min (cap : ℕ) (hcap : 0 < cap)
    (vs : List MetricRecord) :
    viewLength (CappedArray.insertAll (new_array cap) vs) =
      min vs.length cap := by
  have hmi : (CappedArray.insertAll (new_array cap) vs).mi = vs.length := by
    rw [insertAll_mi]; simp [new_array]
  have hlen : (CappedArray.insertAll (new_array cap) vs).buf.length = cap := by
    rw [insertAll_buf_length]; simp [new_array]
  simp [viewLength, CappedArray.view, CappedArray.logicalView, hmi, hlen]

/-- Witness for C4 at capacity 4 with the spec's six inserted rows. -/
theorem view_length_eq_min_witness :
    viewLength
        (CappedArray.insertAll (new_array 4)
          (List.map nfcRec [0, 1, 1, 2, 3, 5])) =
      min (List.map nfcRec [0, 1, 1, 2, 3, 5]).length 4 :=
  view_length_eq_min 4 (by decide) (List.map nfcRec [0, 1, 1, 2, 3, 5])

/-! ### C3: the rollover flag -/

/-- C3 counterexample: at capacity 1 the very first insertion — an
insertion of the buffer's first lap, before the buffer was ever filled
past capacity (`¬ 1 ≤ 0` prior inserts) — already returns `true`. -/
theorem rollover_flag_counterexample :
    ((CappedArray.insert (new_array 1) zeroRecord).2 = true) ∧
      ¬ (0 % 1 = 0 ∧ 1 ≤ (0 : ℕ)) := by decide

/-- C3 amended: for every capacity ≥ 2, inserting after `k` prior inserts
returns `true` exactly when `k` is a multiple of the capacity and at least
the capacity (once per lap, `false` throughout the first lap); at
capacity 1 every insertion, including the first, returns `true`. -/
theorem rollover_flag_after_first_lap (cap : ℕ) (hcap : 2 ≤ cap)
    (vs : List MetricRecord) (v : MetricRecord) :
    ((CappedArray.insertAll (new_array cap) vs).insert v).2 =
      decide (vs.length % cap = 0 ∧ cap ≤ vs.length) := by
  have hmi : (CappedArray.insertAll (new_array cap) vs).mi = vs.length := by
    rw [insertAll_mi]; simp [new_array]
  have hlen : (CappedArray.insertAll (new_array cap) vs).buf.length = cap := by
    rw [insertAll_buf_length]; simp [new_array]
  simp only [CappedArray.insert, hmi, hlen]
  rw [decide_eq_decide]
  constructor
  · rintro ⟨h1, h2⟩
    refine ⟨h2, ?_⟩
    have hd : cap ∣ vs.length := Nat.dvd_of_mod_eq_zero h2
    by_contra hlt
    push_neg at hlt
    have h0 : vs.length = 0 := Nat.eq_zero_of_dvd_of_lt hd hlt
    omega
  · rintro ⟨h2, h1⟩
    exact ⟨by omega, h2⟩

/-- Witness for C3's amended statement: capacity 2, two prior inserts. -/
theorem rollover_flag_after_first_lap_witness :
    ((CappedArray.insertAll (new_array 2) [zeroRecord, zeroRecord]).insert
        zeroRecord).2 =
      decide ([zeroRecord, zeroRecord].length % 2 = 0 ∧
        2 ≤ [zeroRecord, zeroRecord].length) :=
  rollover_flag_after_first_lap 2 (by decide) [zeroRecord, zeroRecord]
    zeroRecord

/-! ### C9: the effect of one insert -/

/-- C9: every insert writes the record into the physical slot
`insert_count % capacity`, increments `insert_count` by exactly one, keeps
the capacity, and leaves every other physical slot unchanged. -/
theorem insert_effect (c : CappedArray) (v : MetricRecord)
    (hcap : 0 < c.buf.length) :
    ((CappedArray.insert c v).1).mi = c.mi + 1 ∧
    ((CappedArray.insert c v).1).buf.length = c.buf.length ∧
    ((CappedArray.insert c v).1).buf[c.mi % c.buf.length]? = some v ∧
    ∀ j : ℕ, j ≠ c.mi % c.buf.length →
      ((CappedArray.insert c v).1).buf[j]? = c.buf[j]? := by
  refine ⟨rfl, by simp [insert_fst_eq], ?_, ?_⟩
  · rw [insert_fst_eq]
    exact List.getElem?_set_self (Nat.mod_lt _ hcap)
  · intro j hj
    rw [insert_fst_eq]
    exact List.getElem?_set_ne (fun h => hj h.symm)

/-- Witness for C9: inserting a fresh row into the two-row scenario
buffer. -/
theorem insert_effect_witness :
    ((CappedArray.insert scenarioBack (nfcRec 7)).1).mi =
        scenarioBack.mi + 1 ∧
    ((CappedArray.insert scenarioBack (nfcRec 7)).1).buf.length =
        scenarioBack.buf.length ∧
    ((CappedArray.insert scenarioBack
          (nfcRec 7)).1).buf[scenarioBack.mi % scenarioBack.buf.length]? =
        some (nfcRec 7) ∧
    ∀ j : ℕ, j ≠ scenarioBack.mi % scenarioBack.buf.length →
      ((CappedArray.insert scenarioBack (nfcRec 7)).1).buf[j]? =
        scenarioBack.buf[j]? :=
  insert_effect scenarioBack (nfcRec 7) (by decide)

/-! ### C2: the capacity-4 concrete scenario -/

/-- C2 counterexample: after the six inserts the view holds the surviving
rows in *physical slot* order `[3, 5, 1, 2]`, not in insertion order
`[1, 2, 3, 5]`, and `seizure_fail_rate(0, 3)` is the uint32-wrapped
`(2 - 3) mod 2^32 / 3 = 1431655765`, not `(5 - 1) / 3`. -/
theorem capped_scenario_counterexample :
    nfcColumn scenarioNfc = [3, 5, 1, 2] ∧
    nfcColumn scenarioNfc ≠ [1, 2, 3, 5] ∧
    seizure_fail_rate scenarioNfc 0 3 = Except.ok 1431655765 ∧
    (1431655765 : ℚ) ≠ (5 - 1) / 3 :=
  ⟨by decide, by decide, by with_unfolding_all rfl, by norm_num⟩

/-- C2 amended: capacity 4, six inserted rows with
`num_failed_calls = [0, 1, 1, 2, 3, 5]`: the view has length 4 and holds
the last four logically inserted rows in physical slot order
(`num_failed_calls` column `[3, 5, 1, 2]`), and `seizure_fail_rate(0, 3)`
equals `((2 - 3) mod 2^32) / 3 = 4294967295 / 3`. -/
theorem capped_scenario_amended :
    viewLength scenarioNfc = 4 ∧
    nfcColumn scenarioNfc = [3, 5, 1, 2] ∧
    seizure_fail_rate scenarioNfc 0 3 =
      Except.ok ((4294967295 : ℚ) / 3) :=
  ⟨by decide, by decide, by with_unfolding_all rfl⟩

/-! ### C1: inst_rate mutates the buffer in place -/

theorem timeLE_trans (a b c : MetricRecord) (h1 : timeLE a b = true)
    (h2 : timeLE b c = true) : timeLE a c = true := by
  simp only [timeLE, decide_eq_true_eq] at h1 h2 ⊢
  exact le_trans h1 h2

theorem timeLE_total (a b : MetricRecord) : (timeLE a b || timeLE b a) = true := by
  simp only [timeLE, Bool.or_eq_true, decide_eq_true_eq]
  exact le_total a.time b.time

theorem sortByTime_perm (l : List MetricRecord) : (sortByTime l).Perm l :=
  List.mergeSort_perm l timeLE

theorem sortByTime_pairwise (l : List MetricRecord) :
    (sortByTime l).Pairwise (fun a b => a.time ≤ b.time) := by
  have h := List.sorted_mergeSort timeLE_trans timeLE_total l
  exact h.imp (fun hab => by
    simpa only [timeLE, decide_eq_true_eq] using hab)

theorem sortByTime_length (l : List MetricRecord) :
    (sortByTime l).length = l.length := List.length_mergeSort l

theorem inst_rate_buf (c : CappedArray) :
    (inst_rate c).1.buf = sortByTime (c.buf.take c.mi) ++ c.buf.drop c.mi := rfl

theorem inst_rate_buf_take (c : CappedArray) :
    (inst_rate c).1.buf.take c.mi = sortByTime (c.buf.take c.mi) := by
  rw [inst_rate_buf, List.take_append_eq_append_take]
  have hlen : (sortByTime (c.buf.take c.mi)).length = min c.mi c.buf.length := by
    rw [sortByTime_length, List.length_take]
  have hle : (sortByTime (c.buf.take c.mi)).length ≤ c.mi := by
    rw [hlen]; exact Nat.min_le_left _ _
  rw [List.take_of_length_le hle]
  rcases le_total c.mi c.buf.length with h | h
  · have : c.mi - (sortByTime (c.buf.take c.mi)).length = 0 := by
      rw [hlen]; omega
    rw [this]
    simp
  · rw [List.drop_eq_nil_of_le h]
    simp

theorem inst_rate_buf_drop (c : CappedArray) :
    (inst_rate c).1.buf.drop c.mi = c.buf.drop c.mi := by
  rw [inst_rate_buf, List.drop_append_eq_append_drop]
  have hlen : (sortByTime (c.buf.take c.mi)).length = min c.mi c.buf.length := by
    rw [sortByTime_length, List.length_take]
  have hle : (sortByTime (c.buf.take c.mi)).length ≤ c.mi := by
    rw [hlen]; exact Nat.min_le_left _ _
  rw [List.drop_eq_nil_of_le hle]
  rcases le_total c.mi c.buf.length with h | h
  · have : c.mi - (sortByTime (c.buf.take c.mi)).length = 0 := by
      rw [hlen]; omega
    rw [this]
    simp
  · rw [List.drop_eq_nil_of_le h]
    simp

/-- C1 amended: evaluating `inst_rate` keeps the insertion index and the
capacity but replaces the stored valid prefix by its time-sorted
permutation in place (the slice beyond the view is untouched): the buffer
is mutated, not read from a copy. -/
theorem inst_rate_sorts_in_place (c : CappedArray) :
    (inst_rate c).1.mi = c.mi ∧
    (inst_rate c).1.buf.length = c.buf.length ∧
    (inst_rate c).1.buf.take c.mi = sortByTime (c.buf.take c.mi) ∧
    List.Perm ((inst_rate c).1.buf.take c.mi) (c.buf.take c.mi) ∧
    ((inst_rate c).1.buf.take c.mi).Pairwise (fun a b => a.time ≤ b.time) ∧
    (inst_rate c).1.buf.drop c.mi = c.buf.drop c.mi := by
  refine ⟨rfl, ?_, inst_rate_buf_take c, ?_, ?_, inst_rate_buf_drop c⟩
  · rw [inst_rate_buf]
    rw [List.length_append, sortByTime_length, List.length_take, List.length_drop]
    omega
  · rw [inst_rate_buf_take]
    exact sortByTime_perm _
  · rw [inst_rate_buf_take]
    exact sortByTime_pairwise _

/-- C1 counterexample: with stored times `[1, 0]`, evaluating `inst_rate`
and then reading the `time` column yields `[0, 1]`, not the values
`[1, 0]` read without evaluating it — the buffer is not left unchanged. -/
theorem inst_rate_mutation_counterexample :
    timeColumn scenarioRev = [1, 0] ∧
    timeColumn (inst_rate scenarioRev).1 = [0, 1] ∧
    timeColumn (inst_rate scenarioRev).1 ≠ timeColumn scenarioRev :=
  ⟨by with_unfolding_all rfl, by with_unfolding_all rfl,
    by with_unfolding_all decide⟩

/-! ### Rate helper lemmas -/

theorem sortedTimes_length (c : CappedArray) :
    (sortedTimes c).length = viewLength c := by
  simp [sortedTimes, sortByTime, viewLength, CappedArray.view,
    CappedArray.logicalView]

theorem timeDeltas_length (ts : List ℚ) :
    (timeDeltas ts).length = ts.length - 1 := by
  simp [timeDeltas, List.length_zip, List.length_tail]

theorem instRates_eq (c : CappedArray) :
    instRates c =
      (timeDeltas (sortedTimes c)).map (fun d => clampRate (rawRate d)) := rfl

theorem instRates_length (c : CappedArray) :
    (instRates c).length = viewLength c - 1 := by
  rw [instRates_eq, List.length_map, timeDeltas_length, sortedTimes_length]

theorem clampRate_le (r : Option ℚ) : clampRate r ≤ 300 := by
  cases r with
  | none => simp [clampRate]
  | some q =>
    by_cases h : 300 < q
    · simp [clampRate, h]
    · simp only [clampRate, if_neg h]
      exact le_of_not_lt h

theorem instRates_le (c : CappedArray) : ∀ r ∈ instRates c, r ≤ 300 := by
  intro r hr
  rw [instRates_eq] at hr
  obtain ⟨d, _, rfl⟩ := List.mem_map.mp hr
  exact clampRate_le _

theorem timeDeltas_getD (ts : List ℚ) (k : ℕ) (hk : k + 1 < ts.length) :
    (timeDeltas ts).getD k 0 = ts.getD (k + 1) 0 - ts.getD k 0 := by
  have hlen : (timeDeltas ts).length = ts.length - 1 := timeDeltas_length ts
  have hk1 : k < (timeDeltas ts).length := by omega
  have hkz : k < (ts.zip ts.tail).length := by
    rw [List.length_zip, List.length_tail]
    omega
  rw [List.getD_eq_getElem _ _ hk1,
    List.getD_eq_getElem _ _ (show k + 1 < ts.length by omega),
    List.getD_eq_getElem _ _ (show k < ts.length by omega)]
  simp only [timeDeltas, List.getElem_map, List.getElem_zip]
  congr 1
  rw [List.getElem_tail]

theorem instRates_getD (c : CappedArray) (k : ℕ)
    (hk : k + 1 < (sortedTimes c).length) :
    (instRates c).getD k 0 =
      clampRate
        (rawRate ((sortedTimes c).getD (k + 1) 0 -
          (sortedTimes c).getD k 0)) := by
  have hlen : k < (timeDeltas (sortedTimes c)).length := by
    rw [timeDeltas_length]
    omega
  have hlen2 :
      k < ((timeDeltas (sortedTimes c)).map
        (fun d => clampRate (rawRate d))).length := by
    rw [List.length_map]
    exact hlen
  rw [instRates_eq, List.getD_eq_getElem _ _ hlen2, List.getElem_map,
    ← List.getD_eq_getElem _ _ hlen, timeDeltas_getD _ _ hk]

/-! ### C5 -/

/-- C5: for *every* view, `inst_rate` returns exactly `L - 1` rates, where
`L` is the view length (truncated subtraction: the output is empty when
`L ≤ 1`), every returned value is at most `300`, the `i`-th rate equals
`1 / (t[i+1] - t[i])` over the time-sorted view clamped at `300` whenever
that delta is nonzero, and the capacity-8 scenario with inserted times
`[0, 1, 1/2, 2]` yields `[2, 2, 1]`. -/
theorem inst_rate_values (c : CappedArray) :
    (instRates c).length = viewLength c - 1 ∧
    (∀ r ∈ instRates c, r ≤ 300) ∧
    (∀ i : ℕ, i + 1 < (sortedTimes c).length →
      (sortedTimes c).getD (i + 1) 0 - (sortedTimes c).getD i 0 ≠ 0 →
      (instRates c).getD i 0 =
        (if 300 <
            1 / ((sortedTimes c).getD (i + 1) 0 - (sortedTimes c).getD i 0)
          then (300 : ℚ)
          else 1 /
            ((sortedTimes c).getD (i + 1) 0 - (sortedTimes c).getD i 0))) ∧
    instRates scenarioTimes = [2, 2, 1] := by
  refine ⟨instRates_length c, instRates_le c, ?_, by with_unfolding_all rfl⟩
  intro i hi hd
  rw [instRates_getD c i hi]
  simp only [rawRate, if_neg hd, clampRate]

/-- Witness for C5 at the spec's capacity-8 scenario. -/
theorem inst_rate_values_witness :
    (instRates scenarioTimes).length = viewLength scenarioTimes - 1 ∧
    (∀ r ∈ instRates scenarioTimes, r ≤ 300) ∧
    (∀ i : ℕ, i + 1 < (sortedTimes scenarioTimes).length →
      (sortedTimes scenarioTimes).getD (i + 1) 0 -
          (sortedTimes scenarioTimes).getD i 0 ≠ 0 →
      (instRates scenarioTimes).getD i 0 =
        (if 300 <
            1 / ((sortedTimes scenarioTimes).getD (i + 1) 0 -
              (sortedTimes scenarioTimes).getD i 0)
          then (300 : ℚ)
          else 1 /
            ((sortedTimes scenarioTimes).getD (i + 1) 0 -
              (sortedTimes scenarioTimes).getD i 0))) ∧
    instRates scenarioTimes = [2, 2, 1] :=
  inst_rate_values scenarioTimes

/-! ### C10 -/

theorem two_le_count_of_getD (l : List ℚ) (i j : ℕ) (hij : i < j)
    (hj : j < l.length) (h : l.getD i 0 = l.getD j 0) :
    2 ≤ List.count (l.getD i 0) l := by
  have hi : i < l.length := lt_trans hij hj
  have h1 : l.getD i 0 ∈ l.take j := by
    rw [List.getD_eq_getElem _ _ hi]
    have hi' : i < (l.take j).length := by
      rw [List.length_take]
      omega
    have hmem1 : (l.take j)[i] ∈ l.take j := List.getElem_mem hi'
    have hval1 : (l.take j)[i] = l[i] := List.getElem_take l
    rw [hval1] at hmem1
    exact hmem1
  have h2 : l.getD i 0 ∈ l.drop j := by
    rw [h, List.getD_eq_getElem _ _ hj]
    have hj' : 0 < (l.drop j).length := by
      rw [List.length_drop]
      omega
    have hmem0 : (l.drop j)[0] ∈ l.drop j := List.getElem_mem hj'
    have hval0 : (l.drop j)[0] = l[j + 0] := List.getElem_drop l
    rw [hval0] at hmem0
    simpa using hmem0
  have c1 : 0 < List.count (l.getD i 0) (l.take j) :=
    List.count_pos_iff.mpr h1
  have c2 : 0 < List.count (l.getD i 0) (l.drop j) :=
    List.count_pos_iff.mpr h2
  calc 2 ≤ List.count (l.getD i 0) (l.take j) +
        List.count (l.getD i 0) (l.drop j) := by omega
    _ = List.count (l.getD i 0) (l.take j ++ l.drop j) :=
        (List.count_append _ _ _).symm
    _ = List.count (l.getD i 0) l := by rw [List.take_append_drop]

theorem pairwise_adjacent_dup (t : ℚ) :
    ∀ l : List ℚ, l.Pairwise (· ≤ ·) → 2 ≤ List.count t l →
      ∃ k, k + 1 < l.length ∧ l.getD k 0 = l.getD (k + 1) 0 := by
  intro l
  induction l with
  | nil => intro _ h2; simp at h2
  | cons a rest ih =>
    intro hs h2
    rw [List.pairwise_cons] at hs
    by_cases hat : a = t
    · subst hat
      rw [List.count_cons_self] at h2
      have hmem : a ∈ rest := List.count_pos_iff.mp (by omega)
      cases rest with
      | nil => simp at hmem
      | cons b rest' =>
        have hab : a ≤ b := hs.1 b (by simp)
        have hbt : b = a := by
          rcases List.mem_cons.mp hmem with hb | hr
          · exact hb.symm
          · have hba : b ≤ a := (List.pairwise_cons.mp hs.2).1 a hr
            exact le_antisymm hba hab
        refine ⟨0, by simp, ?_⟩
        simp [List.getD_cons_zero, List.getD_cons_succ, hbt]
    · have hcnt : 2 ≤ List.count t rest := by
        rwa [List.count_cons_of_ne (fun hh => hat hh.symm)] at h2
      obtain ⟨k, hk, he⟩ := ih hs.2 hcnt
      refine ⟨k + 1, ?_, ?_⟩
      · simp only [List.length_cons]
        omega
      · simpa [List.getD_cons_succ] using he

/-- C10: when two rows of the view share a time value, `inst_rate` does
not raise: the sorted time column has an adjacent duplicate whose zero
delta produces the infinite raw rate (`none`, numpy's `1. / 0. = inf`),
and the outlier cap replaces that entry by exactly `300`. -/
theorem inst_rate_dup_time (c : CappedArray) (i j : ℕ) (hij : i < j)
    (hj : j < (timeColumn c).length)
    (heq : (timeColumn c).getD i 0 = (timeColumn c).getD j 0) :
    ∃ k, k + 1 < (sortedTimes c).length ∧
      rawRate ((sortedTimes c).getD (k + 1) 0 -
        (sortedTimes c).getD k 0) = none ∧
      k < (instRates c).length ∧
      (instRates c).getD k 0 = 300 := by
  have h2 : 2 ≤ List.count ((timeColumn c).getD i 0) (timeColumn c) :=
    two_le_count_of_getD _ i j hij hj heq
  have hperm : (sortedTimes c).Perm (timeColumn c) := by
    have h := (List.mergeSort_perm c.logicalView timeLE).map
      (fun r => r.time)
    simpa [sortedTimes, sortByTime, timeColumn] using h
  have h2' : 2 ≤ List.count ((timeColumn c).getD i 0) (sortedTimes c) := by
    rw [hperm.count_eq]
    exact h2
  have hsorted : (sortedTimes c).Pairwise (· ≤ ·) :=
    (sortByTime_pairwise c.logicalView).map _ (fun a b h => h)
  obtain ⟨k, hk, he⟩ :=
    pairwise_adjacent_dup ((timeColumn c).getD i 0) (sortedTimes c)
      hsorted h2'
  have hd0 : (sortedTimes c).getD (k + 1) 0 - (sortedTimes c).getD k 0 = 0 :=
    by rw [← he, sub_self]
  refine ⟨k, hk, ?_, ?_, ?_⟩
  · rw [hd0]
    simp [rawRate]
  · rw [instRates_length]
    have := sortedTimes_length c
    omega
  · rw [instRates_getD c k hk, hd0]
    simp [rawRate, clampRate]

/-- Witness for C10: the capacity-2 buffer whose two rows share time 1. -/
theorem inst_rate_dup_time_witness :
    ∃ k, k + 1 < (sortedTimes scenarioDup).length ∧
      rawRate ((sortedTimes scenarioDup).getD (k + 1) 0 -
        (sortedTimes scenarioDup).getD k 0) = none ∧
      k < (instRates scenarioDup).length ∧
      (instRates scenarioDup).getD k 0 = 300 :=
  inst_rate_dup_time scenarioDup 0 1 (by decide)
    (by with_unfolding_all decide) (by with_unfolding_all rfl)

/-! ### C6: the windowed moving average -/

theorem scanl_add_getD (x : List ℚ) :
    ∀ (b : ℚ) (i : ℕ), i ≤ x.length →
      (List.scanl (fun a c => a + c) b x).getD i 0 = b + (x.take i).sum := by
  induction x with
  | nil =>
    intro b i hi
    have hi0 : i = 0 := Nat.le_zero.mp hi
    subst hi0
    simp [List.scanl]
  | cons a x ih =>
    intro b i hi
    cases i with
    | zero => simp [List.scanl]
    | succ i' =>
      simp only [List.scanl, List.getD_cons_succ]
      rw [ih (b + a) i' (by simpa using hi)]
      rw [List.take_succ_cons, List.sum_cons]
      ring

theorem cumsum_getD (x : List ℚ) (i : ℕ) (hi : i < x.length) :
    (cumsum x).getD i 0 = (x.take (i + 1)).sum := by
  cases x with
  | nil => simp at hi
  | cons a x' =>
    show ((List.scanl (fun a c => a + c) 0 (a :: x')).tail).getD i 0 = _
    simp only [List.scanl, List.tail_cons]
    rw [scanl_add_getD x' (0 + a) i
      (by simp only [List.length_cons] at hi; omega)]
    rw [List.take_succ_cons, List.sum_cons]
    ring

theorem moving_avg_map (x : List ℚ) (n : ℕ) :
    moving_avg x n =
      (List.range x.length).map (fun i =>
        (if min x.length n ≤ i then
            (cumsum x).getD i 0 - (cumsum x).getD (i - min x.length n) 0
          else (cumsum x).getD i 0) / ((min x.length n : ℕ) : ℚ)) := rfl

/-- C6 counterexample: for the one-element series `[2]` with window 100,
the code clamps the window to `min(1, 100) = 1` and returns `[2]`, while
the claim's divide-by-the-full-`n` formula predicts `2 / 100`. -/
theorem moving_avg_counterexample :
    moving_avg [2] 100 = [2] ∧ ((2 : ℚ) / 100 ≠ 2) :=
  ⟨by with_unfolding_all rfl, by norm_num⟩

/-- C6 amended: with the clamped window `n' = min (length x) n`, the
output has the length of `x`, the cumulative sum is the running prefix
sum, entry `i` is `(cs[i] - cs[i - n']) / n'` for `i ≥ n'` and
`cs[i] / n'` for `i < n'`, and `wm_rate` is this moving average of the
instantaneous rates with requested window 100. -/
theorem moving_avg_spec (x : List ℚ) (n : ℕ) (hn : 1 ≤ n) (i : ℕ)
    (hi : i < x.length) (c : CappedArray) :
    (moving_avg x n).length = x.length ∧
    (cumsum x).getD i 0 = (x.take (i + 1)).sum ∧
    (min x.length n ≤ i →
      (moving_avg x n).getD i 0 =
        ((cumsum x).getD i 0 - (cumsum x).getD (i - min x.length n) 0) /
          ((min x.length n : ℕ) : ℚ)) ∧
    (i < min x.length n →
      (moving_avg x n).getD i 0 =
        (cumsum x).getD i 0 / ((min x.length n : ℕ) : ℚ)) ∧
    wm_rate c = moving_avg (instRates c) 100 := by
  have hlen : i < ((List.range x.length).map (fun k =>
      (if min x.length n ≤ k then
          (cumsum x).getD k 0 - (cumsum x).getD (k - min x.length n) 0
        else (cumsum x).getD k 0) / ((min x.length n : ℕ) : ℚ))).length := by
    simpa using hi
  refine ⟨by rw [moving_avg_map]; simp, cumsum_getD x i hi, ?_, ?_, rfl⟩
  · intro him
    rw [moving_avg_map, List.getD_eq_getElem _ _ hlen, List.getElem_map,
      List.getElem_range, if_pos him]
  · intro him
    rw [moving_avg_map, List.getD_eq_getElem _ _ hlen, List.getElem_map,
      List.getElem_range, if_neg (not_le.mpr him)]

/-- Witness for C6's amended statement at the one-element series. -/
theorem moving_avg_spec_witness :
    (moving_avg [2] 100).length = ([2] : List ℚ).length ∧
    (cumsum [2]).getD 0 0 = (([2] : List ℚ).take (0 + 1)).sum ∧
    (min ([2] : List ℚ).length 100 ≤ 0 →
      (moving_avg [2] 100).getD 0 0 =
        ((cumsum [2]).getD 0 0 -
            (cumsum [2]).getD (0 - min ([2] : List ℚ).length 100) 0) /
          ((min ([2] : List ℚ).length 100 : ℕ) : ℚ)) ∧
    (0 < min ([2] : List ℚ).length 100 →
      (moving_avg [2] 100).getD 0 0 =
        (cumsum [2]).getD 0 0 / ((min ([2] : List ℚ).length 100 : ℕ) : ℚ)) ∧
    wm_rate scenarioDup = moving_avg (instRates scenarioDup) 100 :=
  moving_avg_spec [2] 100 (by decide) 0 (by decide) scenarioDup

/-! ### C7 and C8: seizure fail rate and answer seizure ratio -/

theorem npGet_in_range (xs : List ℕ) (i : ℤ) (h0 : 0 ≤ i)
    (hl : i < (xs.length : ℤ)) :
    npGet xs i = some (xs.getD i.toNat 0) := by
  simp only [npGet]
  rw [if_neg (not_lt.mpr h0), if_pos ⟨h0, hl⟩]

theorem sfr_ok (c : CappedArray) (s e : ℤ) (hs0 : 0 ≤ s)
    (hsL : s < ((nfcColumn c).length : ℤ))
    (he0 : 0 ≤ normEnd (nfcColumn c).length e)
    (heL : normEnd (nfcColumn c).length e < ((nfcColumn c).length : ℤ))
    (hne : s ≠ normEnd (nfcColumn c).length e) :
    seizure_fail_rate c s e =
      Except.ok
        ((u32sub
            ((nfcColumn c).getD (normEnd (nfcColumn c).length e).toNat 0)
            ((nfcColumn c).getD s.toNat 0) : ℕ) /
          ((normEnd (nfcColumn c).length e - s : ℤ) : ℚ)) := by
  have hdenom : ((normEnd (nfcColumn c).length e - s : ℤ) : ℚ) ≠ 0 := by
    rw [Int.cast_ne_zero]
    omega
  simp only [seizure_fail_rate, npGet_in_range _ _ he0 heL,
    npGet_in_range _ _ hs0 hsL]
  rw [if_neg hdenom]

theorem sfr_zero_div (c : CappedArray) (s e : ℤ) (hs0 : 0 ≤ s)
    (hsL : s < ((nfcColumn c).length : ℤ))
    (he0 : 0 ≤ normEnd (nfcColumn c).length e)
    (heL : normEnd (nfcColumn c).length e < ((nfcColumn c).length : ℤ))
    (heq : s = normEnd (nfcColumn c).length e) :
    seizure_fail_rate c s e = Except.error PyError.zeroDivisionError := by
  have hdenom : ((normEnd (nfcColumn c).length e - s : ℤ) : ℚ) = 0 := by
    rw [Int.cast_eq_zero]
    omega
  simp only [seizure_fail_rate, npGet_in_range _ _ he0 heL,
    npGet_in_range _ _ hs0 hsL]
  rw [if_pos hdenom]

/-- C7 counterexample: over `num_failed_calls = [0, 1]`, calling with
`start = 1`, `end = 0` returns the uint32-wrapped
`float(nfc[0] - nfc[1]) / (0 - 1) = -4294967295`, while the claim's plain
subtraction `(0 - 1) / (0 - 1)` equals `1`. -/
theorem sfr_wraparound_counterexample :
    seizure_fail_rate scenarioBack 1 0 = Except.ok (-4294967295) ∧
    ((0 : ℚ) - 1) / ((0 : ℚ) - 1) = 1 ∧
    (-4294967295 : ℚ) ≠ ((0 : ℚ) - 1) / ((0 : ℚ) - 1) :=
  ⟨by with_unfolding_all rfl, by norm_num, by norm_num⟩

/-- C7 amended: for in-range indices, `seizure_fail_rate` fails with
`ZeroDivisionError` iff `start` equals the normalised `end`, and otherwise
returns the *uint32-wrapped* difference of the counter values divided by
`end' - start`. -/
theorem sfr_error_iff (c : CappedArray) (s e : ℤ) (hs0 : 0 ≤ s)
    (hsL : s < ((nfcColumn c).length : ℤ))
    (he0 : 0 ≤ normEnd (nfcColumn c).length e)
    (heL : normEnd (nfcColumn c).length e < ((nfcColumn c).length : ℤ)) :
    (seizure_fail_rate c s e = Except.error PyError.zeroDivisionError ↔
      s = normEnd (nfcColumn c).length e) ∧
    (s ≠ normEnd (nfcColumn c).length e →
      seizure_fail_rate c s e =
        Except.ok
          ((u32sub
              ((nfcColumn c).getD (normEnd (nfcColumn c).length e).toNat 0)
              ((nfcColumn c).getD s.toNat 0) : ℕ) /
            ((normEnd (nfcColumn c).length e - s : ℤ) : ℚ))) := by
  constructor
  · constructor
    · intro herr
      by_contra hne
      rw [sfr_ok c s e hs0 hsL he0 heL hne] at herr
      cases herr
    · intro heq
      exact sfr_zero_div c s e hs0 hsL he0 heL heq
  · exact sfr_ok c s e hs0 hsL he0 heL

/-- Witness for C7's amended statement over `num_failed_calls = [0, 1]`
with `start = 0`, `end = 1`. -/
theorem sfr_error_iff_witness :
    (seizure_fail_rate scenarioBack 0 1 =
        Except.error PyError.zeroDivisionError ↔
      (0 : ℤ) = normEnd (nfcColumn scenarioBack).length 1) ∧
    ((0 : ℤ) ≠ normEnd (nfcColumn scenarioBack).length 1 →
      seizure_fail_rate scenarioBack 0 1 =
        Except.ok
          ((u32sub
              ((nfcColumn scenarioBack).getD
                (normEnd (nfcColumn scenarioBack).length 1).toNat 0)
              ((nfcColumn scenarioBack).getD (0 : ℤ).toNat 0) : ℕ) /
            ((normEnd (nfcColumn scenarioBack).length 1 - 0 : ℤ) : ℚ))) :=
  sfr_error_iff scenarioBack 0 1 (by decide) (by decide) (by decide)
    (by decide)

/-- C8: wherever the pair of indices is valid (in range, distinct after
normalisation), `answer_seizure_ratio` is `1 - seizure_fail_rate` and the
two sum to exactly 1. -/
theorem asr_complement (c : CappedArray) (s e : ℤ) (hs0 : 0 ≤ s)
    (hsL : s < ((nfcColumn c).length : ℤ))
    (he0 : 0 ≤ normEnd (nfcColumn c).length e)
    (heL : normEnd (nfcColumn c).length e < ((nfcColumn c).length : ℤ))
    (hne : s ≠ normEnd (nfcColumn c).length e) :
    ∃ r : ℚ, seizure_fail_rate c s e = Except.ok r ∧
      answer_seizure_ratio c s e = Except.ok (1 - r) ∧
      (1 - r) + r = 1 := by
  refine ⟨_, sfr_ok c s e hs0 hsL he0 heL hne, ?_, by ring⟩
  unfold answer_seizure_ratio
  rw [sfr_ok c s e hs0 hsL he0 heL hne]

/-- Witness for C8 over `num_failed_calls = [0, 1]` with indices 0, 1. -/
theorem asr_complement_witness :
    ∃ r : ℚ, seizure_fail_rate scenarioBack 0 1 = Except.ok r ∧
      answer_seizure_ratio scenarioBack 0 1 = Except.ok (1 - r) ∧
      (1 - r) + r = 1 :=
  asr_complement scenarioBack 0 1 (by decide) (by decide) (by decide)
    (by decide) (by decide)
